import Mathlib

/-!
# Verification of the global-variable extraction and glue synthesizer

Shallow embedding of `src/backend/generate_variable_glue.py` (`generate_glue`):
comment stripping (`re.sub(r"/\*.*?\*/", ...)` and `re.sub(r"//.*", ...)`),
the brace-depth scope reduction loop, the declaration regex
`(?m)^(?!.*(?:static|const))\s*\b(int\b|uint16_t\b|uint32_t\b|String\b|char\s*\*|char\b)\s*([a-zA-Z_][a-zA-Z0-9_]*(?:\s*\[\s*\d*\s*\])?)`
run with `re.findall`, and the header/dispatch emission loops.

Strings are modelled as `List Char`; machine-independent. Functions that in
Python recurse on a non-structural suffix are given a fuel parameter equal to
`length + 1`, which is always sufficient because every step consumes at least
one character; fuel-irrelevance lemmas are proved where general reasoning
needs them.
-/

namespace GlueGen

/-! ## Character classes (Python `\s`, `\w`, `\d`, `[a-zA-Z_]`, ASCII) -/

/-- Python `\s` on ASCII text: space, tab, newline, carriage return,
vertical tab, form feed. -/
def isSpaceB (c : Char) : Bool :=
  c = ' ' || c = '\t' || c = '\n' || c = '\r' || c = '\x0b' || c = '\x0c'

/-- Python word character `[a-zA-Z0-9_]` (ASCII). -/
def isWordB (c : Char) : Bool :=
  c.isAlpha || c.isDigit || c = '_'

/-- First character of the identifier group: `[a-zA-Z_]`. -/
def isNameStartB (c : Char) : Bool :=
  c.isAlpha || c = '_'

/-- Python `\d` (ASCII digits). -/
def isDigitB (c : Char) : Bool := c.isDigit

/-! ## Substring test (Python `in` on strings, and the lookahead body) -/

/-- Predicate `hasSub needle hay`: true iff `needle` occurs contiguously in `hay`
(Python `needle in hay`). -/
def hasSub (needle : List Char) : List Char → Bool
  | [] => needle.isEmpty
  | c :: r => needle.isPrefixOf (c :: r) || hasSub needle r

/-! ## Block-comment stripping: `re.sub(r"/\*.*?\*/", "", content, flags=re.DOTALL)`

A match starts at a literal `/*` and the lazy `.*?` makes it end at the
nearest following `*/` (starting at least two characters later).  `re.sub`
removes the non-overlapping matches scanning left to right.  A `/*` with no
later closer matches nothing and is left in place. -/

/-- Text after the nearest following `*/`, or `none` when there is no closer.
This is the lazy `.*?\*/` of the pattern. -/
def findClose : List Char → Option (List Char)
  | [] => none
  | [_] => none
  | a :: b :: r => if a = '*' ∧ b = '/' then some r else findClose (b :: r)

/-- Fueled scan for `re.sub(r"/\*.*?\*/", "", _, flags=re.DOTALL)`. -/
def stripBlockF : Nat → List Char → List Char
  | 0, cs => cs
  | fuel + 1, cs =>
    match cs with
    | [] => []
    | [c] => [c]
    | a :: b :: r =>
      if a = '/' ∧ b = '*' then
        match findClose r with
        | some r2 => stripBlockF fuel r2
        | none => a :: b :: r
      else a :: stripBlockF fuel (b :: r)

/-- Block-comment stripping on a character list. -/
def stripBlock (cs : List Char) : List Char := stripBlockF (cs.length + 1) cs

/-! ## Line-comment stripping: `re.sub(r"//.*", "", content)` -/

/-- Drop characters up to (but not including) the next newline. This is the
greedy `.*` (no DOTALL) after `//`. -/
def dropToEol : List Char → List Char
  | [] => []
  | c :: r => if c = '\n' then c :: r else dropToEol r

/-- Fueled scan for `re.sub(r"//.*", "", _)`. -/
def stripLineF : Nat → List Char → List Char
  | 0, cs => cs
  | fuel + 1, cs =>
    match cs with
    | [] => []
    | [c] => [c]
    | a :: b :: r =>
      if a = '/' ∧ b = '/' then stripLineF fuel (dropToEol r)
      else a :: stripLineF fuel (b :: r)

/-- Line-comment stripping on a character list. -/
def stripLine (cs : List Char) : List Char := stripLineF (cs.length + 1) cs

/-! ## Scope reduction

The `for char in content` loop of `generate_glue`: `{` increments the level,
`}` decrements it (no clamping: the Python integer goes negative on
unbalanced input), any other character is emitted iff the level is exactly 0.
Braces themselves are never emitted. -/

/-- The brace-level loop; the level is an integer exactly as in Python. -/
def reduceAux : List Char → Int → List Char
  | [], _ => []
  | c :: r, lvl =>
    if c = '{' then reduceAux r (lvl + 1)
    else if c = '}' then reduceAux r (lvl - 1)
    else if lvl = 0 then c :: reduceAux r lvl
    else reduceAux r lvl

/-- The `global_scope_content` value of the Python code. -/
def globalScope (cs : List Char) : List Char := reduceAux cs 0

/-- Net brace balance of a text: `+1` per `{`, `-1` per `}`. -/
def netLevel : List Char → Int
  | [] => 0
  | c :: r => (if c = '{' then 1 else if c = '}' then -1 else 0) + netLevel r

/-- Holds iff, starting from level `lvl`, the running
brace level never drops below 0 while scanning `cs` (no `}` arrives at
level 0).  `minLevelOk cs 0 && netLevel cs = 0` says `cs` is a balanced
block body. -/
def minLevelOk : List Char → Int → Bool
  | [], _ => true
  | c :: r, lvl =>
    if c = '{' then minLevelOk r (lvl + 1)
    else if c = '}' then decide (0 ≤ lvl - 1) && minLevelOk r (lvl - 1)
    else minLevelOk r lvl

/-! ## The declaration pattern

`(?m)^(?!.*(?:static|const))\s*\b(int\b|uint16_t\b|uint32_t\b|String\b|char\s*\*|char\b)\s*([a-zA-Z_][a-zA-Z0-9_]*(?:\s*\[\s*\d*\s*\])?)`

run with `re.findall`. The embedding below follows the backtracking engine
but every backtracking point of this particular pattern is forced:

* `^` (multiline) restricts match starts to the beginning of the string and
  positions right after a `\n`;
* the negative lookahead `(?!.*(?:static|const))` fails exactly when the
  remainder of the anchor line contains `static` or `const` (`.` does not
  cross `\n`, and neither word contains one);
* greedy `\s*` before a token that must start with a non-space character can
  only succeed on the maximal whitespace run (`\s` does match `\n`);
* the six type alternatives are tried in order; their successes are mutually
  exclusive at any one position, so no cross-alternative backtracking can
  change the result;
* the optional array-suffix group matches exactly when the text after the
  identifier is `\s* [ \s* \d* \s* ]`, otherwise it contributes nothing.
 -/

/-- Word boundary `\b` directly after a keyword: next character is not a
word character (end of input included). -/
def boundaryAfter : List Char → Bool
  | [] => true
  | c :: _ => !isWordB c

/-- One keyword alternative `kw\b`: returns the captured token and the rest. -/
def kwTok (w : List Char) (cs : List Char) : Option (List Char × List Char) :=
  if w.isPrefixOf cs then
    if boundaryAfter (cs.drop w.length) then some (w, cs.drop w.length) else none
  else none

/-- The `char\s*\*` alternative; the capture keeps the whitespace verbatim. -/
def charStarTok (cs : List Char) : Option (List Char × List Char) :=
  if ['c', 'h', 'a', 'r'].isPrefixOf cs then
    match (cs.drop 4).dropWhile isSpaceB with
    | '*' :: r2 =>
        some (['c', 'h', 'a', 'r'] ++ (cs.drop 4).takeWhile isSpaceB ++ ['*'], r2)
    | _ => none
  else none

/-- The type alternation, in the pattern's order. -/
def mTypeTok (cs : List Char) : Option (List Char × List Char) :=
  match kwTok "int".data cs with
  | some r => some r
  | none =>
    match kwTok "uint16_t".data cs with
    | some r => some r
    | none =>
      match kwTok "uint32_t".data cs with
      | some r => some r
      | none =>
        match kwTok "String".data cs with
        | some r => some r
        | none =>
          match charStarTok cs with
          | some r => some r
          | none => kwTok "char".data cs

/-- Group 2: `[a-zA-Z_][a-zA-Z0-9_]*(?:\s*\[\s*\d*\s*\])?`. The bracket
suffix (whitespace included) is part of the capture when present. -/
def mName (cs : List Char) : Option (List Char × List Char) :=
  match cs with
  | [] => none
  | c :: r =>
    if isNameStartB c then
      match (r.dropWhile isWordB).dropWhile isSpaceB with
      | '[' :: r5 =>
        match ((r5.dropWhile isSpaceB).dropWhile isDigitB).dropWhile isSpaceB with
        | ']' :: r9 =>
            some (c :: r.takeWhile isWordB
                    ++ (r.dropWhile isWordB).takeWhile isSpaceB
                    ++ '[' :: (r5.takeWhile isSpaceB
                        ++ (r5.dropWhile isSpaceB).takeWhile isDigitB
                        ++ ((r5.dropWhile isSpaceB).dropWhile isDigitB).takeWhile isSpaceB
                        ++ [']']),
                  r9)
        | _ => some (c :: r.takeWhile isWordB, r.dropWhile isWordB)
      | _ => some (c :: r.takeWhile isWordB, r.dropWhile isWordB)
    else none

/-- The remainder of the current line (up to the next `\n` or end). -/
def lineOf (cs : List Char) : List Char := cs.takeWhile (fun c => !(c = '\n'))

/-- The negative lookahead `(?!.*(?:static|const))` at a line start:
succeeds iff the line contains neither word. -/
def lookaheadOK (cs : List Char) : Bool :=
  !hasSub "static".data (lineOf cs) && !hasSub "const".data (lineOf cs)

/-- One attempt of the whole pattern at a position where `^` holds. Returns
`(group1, group2, rest-of-input-after-the-match)`. -/
def matchAttempt (cs : List Char) : Option (List Char × List Char × List Char) :=
  if lookaheadOK cs then
    match mTypeTok (cs.dropWhile isSpaceB) with
    | some (g1, r2) =>
      match mName (r2.dropWhile isSpaceB) with
      | some (g2, r4) => some (g1, g2, r4)
      | none => none
    | none => none
  else none

/-- The `re.findall` driver: try the pattern at every `^` position from left to
right; after a successful (never empty) match, continue at its end. The
boolean tracks whether the current position is a `^` position; the character
just before a match end is a word character or `]`, never `\n`. -/
def scanAuxF : Nat → List Char → Bool → List (List Char × List Char)
  | 0, _, _ => []
  | fuel + 1, cs, atLS =>
    match (if atLS then matchAttempt cs else none) with
    | some (g1, g2, rest) => (g1, g2) :: scanAuxF fuel rest false
    | none =>
      match cs with
      | [] => []
      | c :: r => scanAuxF fuel r (decide (c = '\n'))

/-- The result of `re.findall(pattern, cs)` as a list of `(type, name)` captures. -/
def matchesOf (cs : List Char) : List (List Char × List Char) :=
  scanAuxF (cs.length + 1) cs true

/-! ## The pipeline up to the match list -/

/-- Comment stripping followed by scope reduction, in the code's order. -/
def preprocess (cs : List Char) : List Char :=
  globalScope (stripLine (stripBlock cs))

/-- The `matches` list of `generate_glue` for a given source text. -/
def gluePairs (cs : List Char) : List (List Char × List Char) :=
  matchesOf (preprocess cs)

/-- Same, on `String`s for readable statements. -/
def glueMatches (s : String) : List (String × String) :=
  (gluePairs s.data).map (fun p => (String.mk p.1, String.mk p.2))

/-! ## Emission: the header text built by the two `for var_type, var_name in
matches` loops of `generate_glue` -/

/-- Python `str.strip()` (ASCII whitespace). -/
def pyStrip (cs : List Char) : List Char :=
  ((cs.dropWhile isSpaceB).reverse.dropWhile isSpaceB).reverse

/-- Python `var_name.split("[")[0].strip()`: the dispatch key of a variable. -/
def baseName (n : List Char) : List Char :=
  pyStrip (n.takeWhile (fun c => !(c = '[')))

/-- A single quote character, used for the `'\0'` literal in the output. -/
def squote : Char := Char.ofNat 39

/-- The C literal `'\0'` exactly as the f-string renders it. -/
def nulLit : String := String.mk [squote, '\\', '0', squote]

/-- One extern declaration line: `f"extern {var_type} {var_name};\n"`.
Both branches of the `if "[" in var_name` emit this same string. -/
def declLine (t n : List Char) : String :=
  "extern " ++ String.mk t ++ " " ++ String.mk n ++ ";\n"

/-- One dispatch branch of `updateVariableGeneric`, with the code's
substring-based type dispatch (`"int" in var_type or "uint" in var_type`,
`"String" in var_type`, `"char" in var_type and "*" in var_type`,
`"char" in var_type and "[" in var_name`, else nothing). -/
def branchText (t n : List Char) : String :=
  let base := String.mk (baseName n)
  "  if (name == \"" ++ base ++ "\") \x7b\n"
  ++ (if hasSub "int".data t || hasSub "uint".data t then
        "    " ++ base ++ " = (" ++ String.mk t ++ ")value.toInt();\n"
        ++ (if hasSub "LED_PIN".data (baseName n) then
              "    pinMode(LED_PIN, OUTPUT);\n"
            else "")
      else if hasSub "String".data t then
        "    " ++ base ++ " = value;\n"
      else if hasSub "char".data t && hasSub "*".data t then
        "    if (" ++ base ++ ") free((void*)" ++ base ++ ");\n"
        ++ "    " ++ base ++ " = strdup(value.c_str());\n"
      else if hasSub "char".data t && hasSub "[".data n then
        "    strncpy(" ++ base ++ ", value.c_str(), sizeof(" ++ base ++ ")-1);\n"
        ++ "    " ++ base ++ "[sizeof(" ++ base ++ ")-1] = " ++ nulLit ++ ";\n"
      else "")
  ++ "    return true;\n  \x7d\n"

/-- The fixed prelude of the generated header. -/
def headerPrelude : String :=
  "#ifndef AI_VARS_GEN_H\n#define AI_VARS_GEN_H\n\n#include <Arduino.h>\n\n// Externs\n"

/-- The fixed text between the extern block and the dispatch branches. -/
def dispatchHead : String :=
  "\ninline bool updateVariableGeneric(String name, String value) \x7b\n"

/-- The fixed closing text of the generated header. -/
def footerText : String := "  return false;\n\x7d\n\n#endif\n"

/-- The `header_content` string as accumulated by the two emission loops. -/
def buildHeader (ms : List (List Char × List Char)) : String :=
  let h1 := ms.foldl (fun acc p => acc ++ declLine p.1 p.2) headerPrelude
  let h2 := ms.foldl (fun acc p => acc ++ branchText p.1 p.2) (h1 ++ dispatchHead)
  h2 ++ footerText

/-- The complete artifact written for a given source text. -/
def generatedHeader (s : String) : String := buildHeader (gluePairs s.data)

/-- The `print(f"{var_name},{var_type}")` lines emitted to stdout, one per
discovered variable, in discovery order. -/
def stdoutOf (ms : List (List Char × List Char)) : List String :=
  ms.map (fun p => String.mk p.2 ++ "," ++ String.mk p.1)

/-! ## Effect model of `generate_glue`

The filesystem is an association list from paths to contents (first hit
wins); `runGenerateGlue` returns the filesystem after the call together with
the list of stdout lines. The Python function returns early (no write, no
print, no exception) when `os.path.exists` fails on the input path. -/

/-- Path lookup in the modelled filesystem. -/
def fsLookup : List (String × String) → String → Option String
  | [], _ => none
  | (p, v) :: r, q => if p = q then some v else fsLookup r q

/-- The call `generate_glue(ai_cpp_path, output_header_path)` as a state transformer:
new filesystem plus stdout lines. -/
def runGenerateGlue (fs : List (String × String)) (inPath outPath : String) :
    List (String × String) × List String :=
  match fsLookup fs inPath with
  | none => (fs, [])
  | some content =>
      ((outPath, buildHeader (gluePairs content.data)) :: fs,
       stdoutOf (gluePairs content.data))

/-! ## Support lemmas on `hasSub` -/

lemma hasSub_cons (n : List Char) (c : Char) (r : List Char) :
    hasSub n (c :: r) = (n.isPrefixOf (c :: r) || hasSub n r) := rfl

lemma isPrefixOf_append_self (n t : List Char) : n.isPrefixOf (n ++ t) = true := by
  induction n with
  | nil => simp
  | cons a n ih =>
    simp only [List.cons_append]
    rw [show (a :: n).isPrefixOf (a :: (n ++ t)) = (a == a && n.isPrefixOf (n ++ t))
        from rfl, ih]
    simp

lemma isPrefixOf_length_le : ∀ (w cs : List Char),
    w.isPrefixOf cs = true → w.length ≤ cs.length := by
  intro w
  induction w with
  | nil => intro cs _; simp
  | cons a w ih =>
    intro cs h
    cases cs with
    | nil => simp [List.isPrefixOf] at h
    | cons b r =>
      rw [show (a :: w).isPrefixOf (b :: r) = (a == b && w.isPrefixOf r) from rfl] at h
      obtain ⟨-, hwr⟩ := Bool.and_eq_true_iff.mp h
      have := ih r hwr
      simp only [List.length_cons]
      omega

/-- A substring explicitly exhibited by a split is found by `hasSub`. -/
lemma hasSub_surround (pre n post : List Char) : hasSub n (pre ++ n ++ post) = true := by
  induction pre with
  | nil =>
    rw [List.nil_append]
    cases hnp : n ++ post with
    | nil =>
      obtain ⟨hn, hp⟩ := List.append_eq_nil.mp hnp
      subst hn
      subst hp
      decide
    | cons c r =>
      have hp := isPrefixOf_append_self n post
      rw [hnp] at hp
      simp [hasSub_cons, hp]
  | cons c pre ih =>
    simp only [List.cons_append, hasSub_cons, ih, Bool.or_true]

/-! ## C9: missing input is a silent no-op -/

/-- C9 — Missing input: when the input path does not exist in the modelled
filesystem, `generate_glue` returns without writing any artifact and without
printing; the filesystem is unchanged and stdout is empty.  (The model is a
total function, so no exception is possible.) -/
theorem missing_input_noop (fs : List (String × String)) (inPath outPath : String)
    (h : fsLookup fs inPath = none) :
    runGenerateGlue fs inPath outPath = (fs, []) := by
  simp [runGenerateGlue, h]

/-- Witness for `missing_input_noop` at an empty filesystem and the default
paths of the script. -/
theorem missing_input_noop_witness :
    runGenerateGlue [] "firmware/src/ai.cpp" "firmware/include/ai_vars_gen.h" = ([], []) :=
  missing_input_noop [] "firmware/src/ai.cpp" "firmware/include/ai_vars_gen.h" rfl

/-! ## C8: effect surface of a run

The claim says the function emits nothing to any channel other than the two
files.  The code, however, executes `print(f"{var_name},{var_type}")` for
every discovered variable inside the dispatch-emission loop. -/

/-- C8 counterexample — on input `int x;` the run emits the line `x,int` to
stdout, a channel other than the input and output files, so the claim that
nothing is emitted elsewhere is false. -/
theorem stdout_print_counterexample :
    (runGenerateGlue [("firmware/src/ai.cpp", "int x;")] "firmware/src/ai.cpp" "out.h").2
        = ["x,int"]
    ∧ ["x,int"] ≠ ([] : List String) := by
  constructor
  · decide
  · decide

/-- C8 amended — the observable effects of a successful run are exactly:
one stdout line `f"{var_name},{var_type}"` per discovered variable in
discovery order, and one write of the generated header at the output path;
every other path of the filesystem is untouched. -/
theorem effect_surface (fs : List (String × String)) (inPath outPath content : String)
    (h : fsLookup fs inPath = some content) :
    (runGenerateGlue fs inPath outPath).2 = stdoutOf (gluePairs content.data)
    ∧ fsLookup (runGenerateGlue fs inPath outPath).1 outPath
        = some (buildHeader (gluePairs content.data))
    ∧ ∀ q, q ≠ outPath →
        fsLookup (runGenerateGlue fs inPath outPath).1 q = fsLookup fs q := by
  refine ⟨by simp [runGenerateGlue, h], by simp [runGenerateGlue, h, fsLookup], ?_⟩
  intro q hq
  simp [runGenerateGlue, h, fsLookup, Ne.symm hq]

/-- Witness for `effect_surface`: a one-file filesystem holding `int x;`. -/
theorem effect_surface_witness :
    (runGenerateGlue [("a.cpp", "int x;")] "a.cpp" "out.h").2
        = stdoutOf (gluePairs "int x;".data)
    ∧ fsLookup (runGenerateGlue [("a.cpp", "int x;")] "a.cpp" "out.h").1 "out.h"
        = some (buildHeader (gluePairs "int x;".data))
    ∧ ∀ q, q ≠ "out.h" →
        fsLookup (runGenerateGlue [("a.cpp", "int x;")] "a.cpp" "out.h").1 q
          = fsLookup [("a.cpp", "int x;")] q :=
  effect_surface [("a.cpp", "int x;")] "a.cpp" "out.h" "int x;" rfl

/-! ## C10: plain `char` dispatch branch has an empty body

For `var_type = "char"` none of the substring tests of the emission chain
(`"int"`, `"uint"`, `"String"`, `"char" and "*"`, `"char" and "["`) fires
when the name has no bracket, so the branch matches the name and returns
`true` without touching the variable. -/

/-- C10 — for a plain `char` variable (no `*` in the type, no bracket in the
name) the dispatch branch is exactly the name guard followed by
`return true;`: no assignment or mutation statement at all.  The second
conjunct shows the pipeline does extract such variables. -/
theorem plain_char_branch_empty (n : List Char) (h : hasSub "[".data n = false) :
    (branchText "char".data n).data =
      "  if (name == \"".data ++ baseName n
        ++ "\") \x7b\n".data ++ "    return true;\n  \x7d\n".data
    ∧ glueMatches "char c;" = [("char", "c")] := by
  have h1 : (hasSub "int".data "char".data || hasSub "uint".data "char".data) = false := by
    decide
  have h2 : hasSub "String".data "char".data = false := by decide
  have h3 : (hasSub "char".data "char".data && hasSub "*".data "char".data) = false := by
    decide
  constructor
  · simp [branchText, h1, h2, h3, h, String.data_append]
  · decide

/-- Witness for `plain_char_branch_empty` at the name `c`. -/
theorem plain_char_branch_empty_witness :
    (branchText "char".data "c".data).data =
      "  if (name == \"".data ++ baseName "c".data
        ++ "\") \x7b\n".data ++ "    return true;\n  \x7d\n".data
    ∧ glueMatches "char c;" = [("char", "c")] :=
  plain_char_branch_empty "c".data (by decide)

/-! ## C4: the `LED_PIN` convention

The code emits the fixed line `pinMode(LED_PIN, OUTPUT);` — the literal
identifier `LED_PIN` — whenever the base name merely *contains* `LED_PIN`.
For a name that contains but is not `LED_PIN` the emitted call does not
reference that variable, so the claim that the branch configures *that
variable's* pin is false. -/

/-- C4 counterexample — `int MY_LED_PIN;` is extracted, its base name
contains `LED_PIN`, yet its branch contains no `pinMode(MY_LED_PIN`
call; the pin-configuration call it does contain names the distinct
identifier `LED_PIN`. -/
theorem led_pin_counterexample :
    glueMatches "int MY_LED_PIN;" = [("int", "MY_LED_PIN")]
    ∧ hasSub "pinMode(MY_LED_PIN".data
        (branchText "int".data "MY_LED_PIN".data).data = false
    ∧ hasSub "pinMode(LED_PIN, OUTPUT);".data
        (branchText "int".data "MY_LED_PIN".data).data = true := by
  refine ⟨by decide, by decide, by decide⟩

/-- C4 amended — for every integer-family variable whose base name contains
`LED_PIN`, the branch is exactly: name guard, parse-cast-assign
(`base = (type)value.toInt();`), then the fixed call
`pinMode(LED_PIN, OUTPUT);` (which names the variable's own pin exactly when
the base name is the literal `LED_PIN`), then `return true;`. -/
theorem led_pin_branch_shape (t n : List Char)
    (h1 : (hasSub "int".data t || hasSub "uint".data t) = true)
    (h2 : hasSub "LED_PIN".data (baseName n) = true) :
    (branchText t n).data =
      "  if (name == \"".data ++ baseName n ++ "\") \x7b\n".data
        ++ "    ".data ++ baseName n ++ " = (".data ++ t ++ ")value.toInt();\n".data
        ++ "    pinMode(LED_PIN, OUTPUT);\n".data
        ++ "    return true;\n  \x7d\n".data := by
  simp [branchText, h1, h2, String.data_append]

/-- Witness for `led_pin_branch_shape` at `int LED_PIN`. -/
theorem led_pin_branch_shape_witness :
    (branchText "int".data "LED_PIN".data).data =
      "  if (name == \"".data ++ baseName "LED_PIN".data ++ "\") \x7b\n".data
        ++ "    ".data ++ baseName "LED_PIN".data ++ " = (".data ++ "int".data
        ++ ")value.toInt();\n".data
        ++ "    pinMode(LED_PIN, OUTPUT);\n".data
        ++ "    return true;\n  \x7d\n".data :=
  led_pin_branch_shape "int".data "LED_PIN".data (by decide) (by decide)

/-! ## C7: the artifact is a pure function of the input with both blocks in
discovery order -/

lemma foldl_append_data (l : List (List Char × List Char))
    (f : List Char × List Char → String) :
    ∀ init : String,
      (l.foldl (fun acc p => acc ++ f p) init).data
        = init.data ++ (l.map (fun p => (f p).data)).flatten := by
  induction l with
  | nil => intro init; simp
  | cons a l ih =>
    intro init
    simp [List.foldl_cons, ih, String.data_append, List.append_assoc]

/-- The generated header decomposes into the fixed prelude, the extern lines
in discovery order, the fixed dispatch head, the branches in discovery
order, and the fixed footer. -/
lemma buildHeader_parts (ms : List (List Char × List Char)) :
    (buildHeader ms).data
      = headerPrelude.data
        ++ (ms.map (fun p => (declLine p.1 p.2).data)).flatten
        ++ dispatchHead.data
        ++ (ms.map (fun p => (branchText p.1 p.2).data)).flatten
        ++ footerText.data := by
  simp [buildHeader, String.data_append, foldl_append_data, List.append_assoc]

/-- C7 — Determinism and ordering: the artifact is the value of a pure
function of the input text, consisting of the fixed prelude, one extern line
per discovered variable in discovery order, the fixed dispatch-function
head, one dispatch branch per variable in the same discovery order, and the
fixed footer.  Re-running on byte-identical input reproduces this same
value byte for byte. -/
theorem deterministic_header_structure (s : String) :
    (generatedHeader s).data
      = headerPrelude.data
        ++ ((gluePairs s.data).map (fun p => (declLine p.1 p.2).data)).flatten
        ++ dispatchHead.data
        ++ ((gluePairs s.data).map (fun p => (branchText p.1 p.2).data)).flatten
        ++ footerText.data :=
  buildHeader_parts (gluePairs s.data)

/-! ## C6: branch/extern correspondence -/

lemma hasSub_of_split (hay pre n post : List Char) (h : hay = pre ++ n ++ post) :
    hasSub n hay = true := by
  rw [h]
  exact hasSub_surround pre n post

lemma flatten_split (l : List (List Char)) (x : List Char) (h : x ∈ l) :
    ∃ j1 j2, l.flatten = j1 ++ x ++ j2 := by
  obtain ⟨s1, s2, rfl⟩ := List.append_of_mem h
  exact ⟨s1.flatten, s2.flatten, by simp [List.append_assoc]⟩

/-- C6 amended — every discovered `(type, name)` record contributes both its
extern declaration line and its dispatch branch (keyed by the same base name
and rendering the same type token) to the generated header; so each branch
has at least one matching extern line.  Exactly one fails when the same
record is discovered twice, see the counterexample. -/
theorem round_trip_matching (s : String) (t n : List Char)
    (h : (t, n) ∈ gluePairs s.data) :
    hasSub (declLine t n).data (generatedHeader s).data = true
    ∧ hasSub (branchText t n).data (generatedHeader s).data = true := by
  have hd : (declLine t n).data
      ∈ (gluePairs s.data).map (fun p => (declLine p.1 p.2).data) :=
    List.mem_map.mpr ⟨(t, n), h, rfl⟩
  have hb : (branchText t n).data
      ∈ (gluePairs s.data).map (fun p => (branchText p.1 p.2).data) :=
    List.mem_map.mpr ⟨(t, n), h, rfl⟩
  obtain ⟨j1, j2, hj⟩ := flatten_split _ _ hd
  obtain ⟨k1, k2, hk⟩ := flatten_split _ _ hb
  constructor
  · apply hasSub_of_split _ (headerPrelude.data ++ j1) _
      (j2 ++ dispatchHead.data
        ++ ((gluePairs s.data).map (fun p => (branchText p.1 p.2).data)).flatten
        ++ footerText.data)
    rw [show generatedHeader s = buildHeader (gluePairs s.data) from rfl,
      buildHeader_parts, hj]
    simp [List.append_assoc]
  · apply hasSub_of_split _
      (headerPrelude.data
        ++ ((gluePairs s.data).map (fun p => (declLine p.1 p.2).data)).flatten
        ++ dispatchHead.data ++ k1) _
      (k2 ++ footerText.data)
    rw [show generatedHeader s = buildHeader (gluePairs s.data) from rfl,
      buildHeader_parts, hk]
    simp [List.append_assoc]

/-- Witness for `round_trip_matching` at `int x;`. -/
theorem round_trip_matching_witness :
    hasSub (declLine "int".data "x".data).data (generatedHeader "int x;").data = true
    ∧ hasSub (branchText "int".data "x".data).data (generatedHeader "int x;").data = true :=
  round_trip_matching "int x;" "int".data "x".data (by decide)

/-- C6 counterexample — on `int x;\nint x;` the same record is discovered
twice: the dispatch branch for `x` has two extern lines with the same base
name and type token (both `extern int x;`), so "exactly one" is false. -/
theorem round_trip_exactly_one_counterexample :
    glueMatches "int x;\nint x;" = [("int", "x"), ("int", "x")]
    ∧ (gluePairs "int x;\nint x;".data).map (fun p => declLine p.1 p.2)
        = ["extern int x;\n", "extern int x;\n"]
    ∧ ((gluePairs "int x;\nint x;".data).map
        (fun p => (p.1, baseName p.2))).count ("int".data, "x".data) = 2 := by
  refine ⟨by decide, by decide, by decide⟩

/-! ## C2: the depth counter is not clamped

The Python loop decrements `brace_level` unconditionally, so a `}` at level
0 drives the counter to `-1` (a Python `int` — no crash, but also no
clamping), and subsequent text that the claim expects at depth 0 is
dropped. -/

/-- One-step unfoldings of the scope loop. -/
lemma reduceAux_cons_open (r : List Char) (lvl : Int) :
    reduceAux ('{' :: r) lvl = reduceAux r (lvl + 1) := rfl

lemma reduceAux_cons_close (r : List Char) (lvl : Int) :
    reduceAux ('}' :: r) lvl = reduceAux r (lvl - 1) := rfl

lemma reduceAux_cons_other (c : Char) (r : List Char) (lvl : Int)
    (h1 : c ≠ '{') (h2 : c ≠ '}') :
    reduceAux (c :: r) lvl
      = if lvl = 0 then c :: reduceAux r lvl else reduceAux r lvl := by
  simp [reduceAux, h1, h2]

/-- On brace-free text the loop emits everything at level 0 and nothing at
any other level. -/
lemma reduceAux_no_brace : ∀ (s : List Char) (lvl : Int),
    (∀ c ∈ s, c ≠ '{' ∧ c ≠ '}') →
    reduceAux s lvl = if lvl = 0 then s else [] := by
  intro s
  induction s with
  | nil => intro lvl _; simp [reduceAux]
  | cons c r ih =>
    intro lvl h
    have hc := h c (List.mem_cons_self c r)
    have hr : ∀ d ∈ r, d ≠ '{' ∧ d ≠ '}' := fun d hd => h d (List.mem_cons_of_mem c hd)
    rw [reduceAux_cons_other c r lvl hc.1 hc.2, ih lvl hr]
    by_cases hl : lvl = 0 <;> simp [hl]

/-- C2 counterexample — on input `}a` the claim (clamping at 0) would emit
`a`; the code's counter goes to `-1` and `a` is dropped, while the same text
without the unmatched `}` is emitted in full. -/
theorem depth_clamp_counterexample :
    globalScope "\x7da".data = [] ∧ globalScope "a".data = "a".data := by
  refine ⟨by decide, by decide⟩

/-- C2 amended — the scan is a total function (it cannot crash), but the
counter is not clamped: after an unmatched `}` at level 0 the counter is
`-1`, so following brace-free text is dropped entirely, and a subsequent `{`
brings the counter back to 0 so that the text after it is emitted again. -/
theorem depth_goes_negative (s : List Char)
    (h : ∀ c ∈ s, c ≠ '{' ∧ c ≠ '}') :
    reduceAux ('}' :: s) 0 = [] ∧ reduceAux ('}' :: '{' :: s) 0 = s := by
  constructor
  · rw [reduceAux_cons_close, reduceAux_no_brace s (0 - 1) h]
    norm_num
  · rw [reduceAux_cons_close, reduceAux_cons_open,
      reduceAux_no_brace s (0 - 1 + 1) h]
    norm_num

/-- Witness for `depth_goes_negative` on the brace-free text `abc`. -/
theorem depth_goes_negative_witness :
    reduceAux ('}' :: "abc".data) 0 = []
    ∧ reduceAux ('}' :: '{' :: "abc".data) 0 = "abc".data :=
  depth_goes_negative "abc".data (by decide)

/-! ## C1: scope soundness

Characters scanned while the running level is at least 1 are never emitted,
so a balanced brace block contributes nothing — but only as long as the
running level never goes negative.  With an unmatched `}` before the block
(counter `-1`), the block's *interior* runs at level 0 and is extracted:
see the counterexample. -/

lemma netLevel_cons (c : Char) (r : List Char) :
    netLevel (c :: r)
      = (if c = '{' then 1 else if c = '}' then -1 else 0) + netLevel r := rfl

lemma minLevelOk_cons_open (r : List Char) (b : Int) :
    minLevelOk ('{' :: r) b = minLevelOk r (b + 1) := rfl

lemma minLevelOk_cons_close (r : List Char) (b : Int) :
    minLevelOk ('}' :: r) b = (decide (0 ≤ b - 1) && minLevelOk r (b - 1)) := rfl

lemma minLevelOk_cons_other (c : Char) (r : List Char) (b : Int)
    (h1 : c ≠ '{') (h2 : c ≠ '}') : minLevelOk (c :: r) b = minLevelOk r b := by
  simp [minLevelOk, h1, h2]

/-- The scope loop splits over appends, continuing at the shifted level. -/
lemma reduceAux_append : ∀ (xs ys : List Char) (lvl : Int),
    reduceAux (xs ++ ys) lvl = reduceAux xs lvl ++ reduceAux ys (lvl + netLevel xs) := by
  intro xs
  induction xs with
  | nil => intro ys lvl; simp [reduceAux, netLevel]
  | cons c r ih =>
    intro ys lvl
    by_cases h1 : c = '{'
    · subst h1
      rw [List.cons_append, reduceAux_cons_open, reduceAux_cons_open, ih,
        netLevel_cons]
      have harg : lvl + 1 + netLevel r = lvl + ((if ('{' : Char) = '{' then 1
          else if ('{' : Char) = '}' then -1 else 0) + netLevel r) := by
        rw [if_pos rfl]
        ring
      rw [harg]
    · by_cases h2 : c = '}'
      · subst h2
        rw [List.cons_append, reduceAux_cons_close, reduceAux_cons_close, ih,
          netLevel_cons]
        have harg : lvl - 1 + netLevel r = lvl + ((if ('}' : Char) = '{' then 1
            else if ('}' : Char) = '}' then -1 else 0) + netLevel r) := by
          rw [if_neg (show ¬('}' : Char) = '{' by decide), if_pos rfl]
          ring
        rw [harg]
      · rw [List.cons_append, reduceAux_cons_other c _ lvl h1 h2,
          reduceAux_cons_other c r lvl h1 h2, ih, netLevel_cons]
        have harg : lvl + netLevel r = lvl + ((if c = '{' then 1
            else if c = '}' then -1 else 0) + netLevel r) := by
          simp [h1, h2]
        rw [harg]
        by_cases hl : lvl = 0 <;> simp [hl]

/-- A prefix whose level never drops below 0 ends with a nonnegative net. -/
lemma netLevel_nonneg : ∀ (s : List Char) (b : Int),
    minLevelOk s b = true → 0 ≤ b → 0 ≤ b + netLevel s := by
  intro s
  induction s with
  | nil => intro b _ hb; simpa [netLevel] using hb
  | cons c r ih =>
    intro b h hb
    by_cases h1 : c = '{'
    · subst h1
      rw [minLevelOk_cons_open] at h
      have := ih (b + 1) h (by omega)
      rw [netLevel_cons]
      norm_num at this ⊢
      omega
    · by_cases h2 : c = '}'
      · subst h2
        rw [minLevelOk_cons_close] at h
        obtain ⟨hd, h'⟩ := Bool.and_eq_true_iff.mp h
        have hb' : (0 : Int) ≤ b - 1 := of_decide_eq_true hd
        have := ih (b - 1) h' hb'
        rw [netLevel_cons]
        norm_num at this ⊢
        omega
      · rw [minLevelOk_cons_other c r b h1 h2] at h
        have := ih b h hb
        rw [netLevel_cons]
        simp [h1, h2]
        omega

/-- Characters of a never-below-zero block scanned from a strictly higher
level are all dropped. -/
lemma reduceAux_dropped : ∀ (s : List Char) (b L : Int),
    0 ≤ b → minLevelOk s b = true → b + 1 ≤ L → reduceAux s L = [] := by
  intro s
  induction s with
  | nil => intro b L _ _ _; rfl
  | cons c r ih =>
    intro b L hb h hL
    by_cases h1 : c = '{'
    · subst h1
      rw [minLevelOk_cons_open] at h
      rw [reduceAux_cons_open]
      exact ih (b + 1) (L + 1) (by omega) h (by omega)
    · by_cases h2 : c = '}'
      · subst h2
        rw [minLevelOk_cons_close] at h
        obtain ⟨hd, h'⟩ := Bool.and_eq_true_iff.mp h
        have hb' : (0 : Int) ≤ b - 1 := of_decide_eq_true hd
        rw [reduceAux_cons_close]
        exact ih (b - 1) (L - 1) hb' h' (by omega)
      · rw [minLevelOk_cons_other c r b h1 h2] at h
        rw [reduceAux_cons_other c r L h1 h2, if_neg (by omega : ¬ L = 0)]
        exact ih b L hb h hL

/-- C1 amended — scope soundness holds on inputs whose running depth never
goes negative before the block: if `pre` never sees `}` at level 0 and
`inner` is a balanced block body, the contents of `{ inner }` contribute
nothing to extraction, and the spec's own scenario extracts exactly
`(int, counter)` with `local` absent.  (Without the nonnegativity condition
the property fails, see the counterexample.) -/
theorem scope_soundness (pre inner post : List Char)
    (hpre : minLevelOk pre 0 = true)
    (hin : minLevelOk inner 0 = true) (hnet : netLevel inner = 0) :
    matchesOf (globalScope (pre ++ '{' :: (inner ++ '}' :: post)))
      = matchesOf (globalScope (pre ++ '{' :: '}' :: post))
    ∧ glueMatches "int counter;\nvoid loop()\x7b int local; \x7d" = [("int", "counter")] := by
  have hnp : 0 ≤ netLevel pre := by
    have := netLevel_nonneg pre 0 hpre (le_refl 0)
    omega
  constructor
  · have key : globalScope (pre ++ '{' :: (inner ++ '}' :: post))
        = globalScope (pre ++ '{' :: '}' :: post) := by
      unfold globalScope
      rw [reduceAux_append pre _ 0, reduceAux_append pre _ 0]
      congr 1
      rw [reduceAux_cons_open, reduceAux_cons_open,
        reduceAux_append inner ('}' :: post) _]
      rw [reduceAux_dropped inner 0 (0 + netLevel pre + 1) (le_refl 0) hin
        (by omega)]
      rw [hnet]
      norm_num
    rw [key]
  · decide

/-- Witness for `scope_soundness`, instantiating the spec's own scenario:
`pre = "int counter;\nvoid loop()"`, `inner = " int local; "`, empty tail. -/
theorem scope_soundness_witness :
    minLevelOk "int counter;\nvoid loop()".data 0 = true
    ∧ minLevelOk " int local; ".data 0 = true
    ∧ netLevel " int local; ".data = 0
    ∧ (matchesOf (globalScope ("int counter;\nvoid loop()".data
          ++ '{' :: (" int local; ".data ++ '}' :: [])))
        = matchesOf (globalScope ("int counter;\nvoid loop()".data ++ '{' :: '}' :: []))
      ∧ glueMatches "int counter;\nvoid loop()\x7b int local; \x7d" = [("int", "counter")]) :=
  ⟨by decide, by decide, by decide,
    scope_soundness "int counter;\nvoid loop()".data " int local; ".data []
      (by decide) (by decide) (by decide)⟩

/-- C1 counterexample — in `}{int x;}` the declaration `int x;` lies inside
a `{ ... }` block (depth 1 under the spec's clamped counter), yet the
unmatched leading `}` drives the code's counter to `-1`, the `{` restores it
to 0, and `x` is extracted and emitted (extern line included). -/
theorem scope_soundness_counterexample :
    glueMatches "\x7d\x7bint x;\x7d" = [("int", "x")]
    ∧ hasSub "extern int x;".data (generatedHeader "\x7d\x7bint x;\x7d").data = true := by
  refine ⟨by decide, by decide⟩

/-! ## C3: block-comment stripping

`re.sub(r"/\*.*?\*/", ...)` removes every *terminated* span from the
earliest `/*` through the nearest following `*/`; but the lazy pattern
requires the closer, so an *unterminated* `/*` matches nothing and the whole
remainder of the input is left in place — the claim's "consume to end of
input" is false. -/

lemma findClose_cons2 (a b : Char) (r : List Char) :
    findClose (a :: b :: r) = if a = '*' ∧ b = '/' then some r else findClose (b :: r) :=
  rfl

/-- Without an adjacent `*/` there is no closer. -/
lemma findClose_of_no_close : ∀ tail : List Char,
    hasSub "*/".data tail = false → findClose tail = none := by
  intro tail
  induction tail with
  | nil => intro _; rfl
  | cons a r ih =>
    intro h
    rw [hasSub_cons] at h
    simp only [Bool.or_eq_false_iff] at h
    obtain ⟨hp, hr⟩ := h
    cases r with
    | nil => rfl
    | cons b r2 =>
      rw [findClose_cons2, if_neg ?_]
      · exact ih hr
      · rintro ⟨ha, hb⟩
        subst ha
        subst hb
        simp [List.isPrefixOf] at hp

/-- The nearest closer after a closer-free `inner` is the appended `*/`. -/
lemma findClose_through : ∀ inner post : List Char,
    hasSub "*/".data inner = false →
    findClose (inner ++ '*' :: '/' :: post) = some post := by
  intro inner
  induction inner with
  | nil => intro post _; rfl
  | cons a r ih =>
    intro post h
    rw [hasSub_cons] at h
    simp only [Bool.or_eq_false_iff] at h
    obtain ⟨hp, hr⟩ := h
    cases r with
    | nil =>
      rw [List.cons_append, List.nil_append, findClose_cons2,
        if_neg (by rintro ⟨_, hx⟩; exact absurd hx (by decide))]
      rfl
    | cons b r2 =>
      simp only [List.cons_append]
      rw [findClose_cons2, if_neg ?_]
      · have := ih post hr
        simpa using this
      · rintro ⟨ha, hb⟩
        subst ha
        subst hb
        simp [List.isPrefixOf] at hp

/-- A successful `findClose` drops at least the two closer characters. -/
lemma findClose_length : ∀ (cs r2 : List Char),
    findClose cs = some r2 → r2.length + 2 ≤ cs.length := by
  intro cs
  induction cs with
  | nil => intro r2 h; simp [findClose] at h
  | cons a r ih =>
    intro r2 h
    cases r with
    | nil => simp [findClose] at h
    | cons b r3 =>
      rw [findClose_cons2] at h
      by_cases hc : a = '*' ∧ b = '/'
      · rw [if_pos hc] at h
        injection h with h
        subst h
        simp
      · rw [if_neg hc] at h
        have := ih r2 h
        simp at this ⊢
        omega

/-- Any sufficient fuel computes the same block-comment stripping. -/
lemma stripBlockF_irrel : ∀ (f1 f2 : Nat) (cs : List Char),
    cs.length < f1 → cs.length < f2 → stripBlockF f1 cs = stripBlockF f2 cs := by
  intro f1
  induction f1 with
  | zero => intro f2 cs h1 _; exact absurd h1 (Nat.not_lt_zero _)
  | succ f ih =>
    intro f2 cs h1 h2
    cases f2 with
    | zero => exact absurd h2 (Nat.not_lt_zero _)
    | succ g =>
      cases cs with
      | nil => rfl
      | cons a r =>
        cases r with
        | nil => rfl
        | cons b r2 =>
          simp only [stripBlockF]
          by_cases hc : a = '/' ∧ b = '*'
          · rw [if_pos hc, if_pos hc]
            cases hfc : findClose r2 with
            | none => rfl
            | some r3 =>
              have hlen := findClose_length r2 r3 hfc
              simp only [List.length_cons] at h1 h2
              exact ih g r3 (by omega) (by omega)
          · rw [if_neg hc, if_neg hc]
            simp only [List.length_cons] at h1 h2
            exact congrArg (a :: ·) (ih g (b :: r2) (by simp; omega) (by simp; omega))

/-- One-step equation of the fueled stripper on a two-character head. -/
lemma stripBlockF_succ_cons2 (f : Nat) (a b : Char) (r : List Char) :
    stripBlockF (f + 1) (a :: b :: r)
      = if a = '/' ∧ b = '*' then
          (match findClose r with
           | some r2 => stripBlockF f r2
           | none => a :: b :: r)
        else a :: stripBlockF f (b :: r) := rfl

lemma stripBlock_cons2 (a b : Char) (r : List Char) (h : ¬(a = '/' ∧ b = '*')) :
    stripBlock (a :: b :: r) = a :: stripBlock (b :: r) := by
  unfold stripBlock
  rw [stripBlockF_succ_cons2, if_neg h]
  exact congrArg (a :: ·) (stripBlockF_irrel _ _ _ (by simp) (by simp))

lemma stripBlock_open_close (r r2 : List Char) (h : findClose r = some r2) :
    stripBlock ('/' :: '*' :: r) = stripBlock r2 := by
  unfold stripBlock
  rw [stripBlockF_succ_cons2, if_pos ⟨rfl, rfl⟩, h]
  have := findClose_length r r2 h
  exact stripBlockF_irrel _ _ _ (by simp; omega) (by simp)

lemma stripBlock_open_none (r : List Char) (h : findClose r = none) :
    stripBlock ('/' :: '*' :: r) = '/' :: '*' :: r := by
  unfold stripBlock
  rw [stripBlockF_succ_cons2, if_pos ⟨rfl, rfl⟩, h]

/-- Opener-free text passes through the comment stripper unchanged, up to
the first opener. -/
lemma stripBlock_pass : ∀ (pre tail : List Char), hasSub "/*".data pre = false →
    stripBlock (pre ++ '/' :: '*' :: tail) = pre ++ stripBlock ('/' :: '*' :: tail) := by
  intro pre
  induction pre with
  | nil => intro tail _; rfl
  | cons c pre2 ih =>
    intro tail h
    rw [hasSub_cons] at h
    simp only [Bool.or_eq_false_iff] at h
    obtain ⟨hp, hr⟩ := h
    cases pre2 with
    | nil =>
      rw [List.cons_append, List.nil_append,
        stripBlock_cons2 c '/' ('*' :: tail)
          (by rintro ⟨_, hx⟩; exact absurd hx (by decide))]
      rfl
    | cons d pre3 =>
      simp only [List.cons_append]
      rw [stripBlock_cons2 c d _ ?_]
      · have := ih tail hr
        simp only [List.cons_append] at this
        rw [this]
      · rintro ⟨hc, hd⟩
        subst hc
        subst hd
        simp [List.isPrefixOf] at hp

/-- C3 amended — every *terminated* block comment is removed, from the
earliest `/*` (no earlier opener in `pre`) through the nearest following
`*/` (no closer inside `inner`); but an *unterminated* `/*` is left in
place verbatim together with everything after it, instead of being consumed
to end of input as the claim states. -/
theorem comment_strip (pre inner post : List Char)
    (h1 : hasSub "/*".data pre = false) (h2 : hasSub "*/".data inner = false) :
    stripBlock (pre ++ '/' :: '*' :: (inner ++ '*' :: '/' :: post))
      = pre ++ stripBlock post
    ∧ stripBlock (pre ++ '/' :: '*' :: inner) = pre ++ '/' :: '*' :: inner := by
  constructor
  · rw [stripBlock_pass pre _ h1,
      stripBlock_open_close _ _ (findClose_through inner post h2)]
  · rw [stripBlock_pass pre inner h1,
      stripBlock_open_none inner (findClose_of_no_close inner h2)]

/-- Witness for `comment_strip`: `int a; /* comment */int b;` loses exactly
the comment span, and the unterminated `int a; /* comment` is unchanged. -/
theorem comment_strip_witness :
    hasSub "/*".data "int a; ".data = false
    ∧ hasSub "*/".data " comment ".data = false
    ∧ (stripBlock ("int a; ".data
          ++ '/' :: '*' :: (" comment ".data ++ '*' :: '/' :: "int b;".data))
        = "int a; ".data ++ stripBlock "int b;".data
      ∧ stripBlock ("int a; ".data ++ '/' :: '*' :: " comment ".data)
        = "int a; ".data ++ '/' :: '*' :: " comment ".data) :=
  ⟨by decide, by decide,
    comment_strip "int a; ".data " comment ".data "int b;".data
      (by decide) (by decide)⟩

/-- C3 counterexample — the input `x/*` followed by a newline and
`int hidden;` contains an unterminated block comment; the claim says the
span from `/*` to end of input is removed (so nothing would be extracted),
but the code leaves the text unchanged and extracts `hidden`. -/
theorem comment_strip_counterexample :
    stripBlock "x/*\nint hidden;".data = "x/*\nint hidden;".data
    ∧ glueMatches "x/*\nint hidden;" = [("int", "hidden")] := by
  refine ⟨by decide, by decide⟩

/-! ## C5: modifier exclusion

The negative lookahead runs at the `^` anchor and inspects only the anchor
line.  Every reported match therefore starts at a line start whose line
contains neither `static` nor `const` — but because `\s*` matches `\n`, the
matched type/name tokens may sit on a *later* line that does contain the
modifier, see the counterexample. -/

/-- A successful keyword-token match leaves a strictly shorter suffix. -/
lemma kwTok_suffix (w cs g rest : List Char) (hw : w ≠ [])
    (h : kwTok w cs = some (g, rest)) :
    rest <:+ cs ∧ rest.length < cs.length := by
  unfold kwTok at h
  split at h
  · split at h
    · rename_i hpref _
      injection h with h
      rw [Prod.mk.injEq] at h
      obtain ⟨_, h2⟩ := h
      subst h2
      refine ⟨List.drop_suffix _ _, ?_⟩
      have hle : w.length ≤ cs.length := isPrefixOf_length_le w cs hpref
      have hpos : 0 < w.length := List.length_pos.mpr hw
      rw [List.length_drop]
      omega
    · exact absurd h (by simp)
  · exact absurd h (by simp)

/-- Same for the `char\s*\*` alternative. -/
lemma charStarTok_suffix (cs g rest : List Char)
    (h : charStarTok cs = some (g, rest)) :
    rest <:+ cs ∧ rest.length < cs.length := by
  unfold charStarTok at h
  split at h
  · split at h
    · rename_i r2 heq
      simp only [Option.some.injEq, Prod.mk.injEq] at h
      obtain ⟨-, h2⟩ := h
      rw [h2] at heq
      have hpref : ['c', 'h', 'a', 'r'].isPrefixOf cs = true := by assumption
      have hsuf : ('*' :: rest) <:+ cs.drop 4 := by
        rw [← heq]
        exact List.dropWhile_suffix _
      refine ⟨List.IsSuffix.trans
        (List.IsSuffix.trans (List.suffix_cons '*' rest) hsuf)
        (List.drop_suffix 4 cs), ?_⟩
      have h1 : ('*' :: rest).length ≤ (cs.drop 4).length := hsuf.length_le
      have h4 : 4 ≤ cs.length := by
        have := isPrefixOf_length_le _ _ hpref
        simpa using this
      rw [List.length_drop] at h1
      simp only [List.length_cons] at h1
      omega
    · exact absurd h (by simp)
  · exact absurd h (by simp)

/-- The six-way type alternation leaves a strictly shorter suffix. -/
lemma mTypeTok_suffix (cs g rest : List Char)
    (h : mTypeTok cs = some (g, rest)) :
    rest <:+ cs ∧ rest.length < cs.length := by
  unfold mTypeTok at h
  split at h
  · rename_i heq
    injection h with h
    subst h
    exact kwTok_suffix _ _ _ _ (by decide) heq
  split at h
  · rename_i heq
    injection h with h
    subst h
    exact kwTok_suffix _ _ _ _ (by decide) heq
  split at h
  · rename_i heq
    injection h with h
    subst h
    exact kwTok_suffix _ _ _ _ (by decide) heq
  split at h
  · rename_i heq
    injection h with h
    subst h
    exact kwTok_suffix _ _ _ _ (by decide) heq
  split at h
  · rename_i heq
    injection h with h
    subst h
    exact charStarTok_suffix _ _ _ heq
  · exact kwTok_suffix _ _ _ _ (by decide) h

/-- The identifier group leaves a strictly shorter suffix. -/
lemma mName_suffix (cs g rest : List Char) (h : mName cs = some (g, rest)) :
    rest <:+ cs ∧ rest.length < cs.length := by
  cases cs with
  | nil => simp [mName] at h
  | cons c r =>
    have step : ∀ x : List Char, x <:+ r → x <:+ (c :: r) ∧ x.length < (c :: r).length :=
      fun x hx =>
        ⟨List.IsSuffix.trans hx (List.suffix_cons c r),
         by have := hx.length_le; simp; omega⟩
    simp only [mName] at h
    split at h
    · split at h
      · rename_i r5 heq5
        split at h
        · rename_i r9 heq9
          simp only [Option.some.injEq, Prod.mk.injEq] at h
          obtain ⟨-, h2⟩ := h
          rw [h2] at heq9
          apply step
          have s5 : ('[' :: r5) <:+ r := by
            refine List.IsSuffix.trans ?_ (List.dropWhile_suffix (p := isWordB))
            rw [← heq5]
            exact List.dropWhile_suffix _
          have s9 : (']' :: rest) <:+ r5 := by
            refine List.IsSuffix.trans ?_
              (List.IsSuffix.trans (List.dropWhile_suffix (p := isDigitB))
                (List.dropWhile_suffix (p := isSpaceB)))
            rw [← heq9]
            exact List.dropWhile_suffix _
          exact List.IsSuffix.trans (List.suffix_cons ']' rest)
            (List.IsSuffix.trans s9
              (List.IsSuffix.trans (List.suffix_cons '[' r5) s5))
        · simp only [Option.some.injEq, Prod.mk.injEq] at h
          obtain ⟨-, h2⟩ := h
          rw [← h2]
          exact step _ (List.dropWhile_suffix _)
      · simp only [Option.some.injEq, Prod.mk.injEq] at h
        obtain ⟨-, h2⟩ := h
        rw [← h2]
        exact step _ (List.dropWhile_suffix _)
    · exact absurd h (by simp)

/-- A successful attempt consumed at least one character, its leftover is a
suffix, and the anchor-line lookahead passed. -/
lemma matchAttempt_suffix (cs g1 g2 rest : List Char)
    (h : matchAttempt cs = some (g1, g2, rest)) :
    rest <:+ cs ∧ rest.length < cs.length ∧ lookaheadOK cs = true := by
  unfold matchAttempt at h
  split at h
  · split at h
    · rename_i g1x r2 heqT
      split at h
      · rename_i g2x r4 heqN
        have hlook : lookaheadOK cs = true := by assumption
        simp only [Option.some.injEq, Prod.mk.injEq] at h
        obtain ⟨-, -, h4⟩ := h
        rw [h4] at heqN
        obtain ⟨hsT, hlT⟩ := mTypeTok_suffix _ _ _ heqT
        obtain ⟨hsN, hlN⟩ := mName_suffix _ _ _ heqN
        have hs : rest <:+ cs :=
          List.IsSuffix.trans hsN
            (List.IsSuffix.trans (List.dropWhile_suffix (p := isSpaceB))
              (List.IsSuffix.trans hsT (List.dropWhile_suffix (p := isSpaceB))))
        refine ⟨hs, ?_, hlook⟩
        have d1 : ((cs.dropWhile isSpaceB).length) ≤ cs.length :=
          (List.dropWhile_suffix (p := isSpaceB)).length_le
        have d2 : ((r2.dropWhile isSpaceB).length) ≤ r2.length :=
          (List.dropWhile_suffix (p := isSpaceB)).length_le
        omega
      · exact absurd h (by simp)
    · exact absurd h (by simp)
  · exact absurd h (by simp)

/-- One-step equation of the fueled `findall` driver. -/
lemma scanAuxF_succ (f : Nat) (cs : List Char) (b : Bool) :
    scanAuxF (f + 1) cs b
      = match (if b then matchAttempt cs else none) with
        | some (g1, g2, rest) => (g1, g2) :: scanAuxF f rest false
        | none =>
          match cs with
          | [] => []
          | c :: r => scanAuxF f r (decide (c = '\n')) := rfl

/-- Soundness of the scan: every reported capture pair comes from a
successful `matchAttempt` at a `^` position (start of input, or right after
a newline). -/
lemma scanAuxF_sound : ∀ (f : Nat) (cs : List Char) (b : Bool)
    (p : List Char × List Char), cs.length < f → p ∈ scanAuxF f cs b →
    ∃ pre suf rest, cs = pre ++ suf
      ∧ ((pre = [] ∧ b = true) ∨ ∃ pre2, pre = pre2 ++ ['\n'])
      ∧ matchAttempt suf = some (p.1, p.2, rest) := by
  intro f
  induction f with
  | zero => intro cs b p h1 hp; exact absurd hp (by simp [scanAuxF])
  | succ f ih =>
    intro cs b p h1 hp
    rw [scanAuxF_succ] at hp
    rcases hM : (if b then matchAttempt cs else none) with _ | ⟨g1, g2, rest⟩
    · rw [hM] at hp
      cases cs with
      | nil => simp at hp
      | cons c r =>
        simp only [] at hp
        obtain ⟨pre, suf, rest2, hre, hflag, hm⟩ :=
          ih r (decide (c = '\n')) p (by simp at h1; omega) hp
        refine ⟨c :: pre, suf, rest2, by simp [hre], ?_, hm⟩
        rcases hflag with ⟨hpre, hflagt⟩ | ⟨pre2, hpre2⟩
        · have hc : c = '\n' := of_decide_eq_true hflagt
          subst hc
          subst hpre
          exact Or.inr ⟨[], rfl⟩
        · exact Or.inr ⟨c :: pre2, by simp [hpre2]⟩
    · rw [hM] at hp
      have hb : b = true := by
        cases b
        · simp at hM
        · rfl
      subst hb
      rw [if_pos rfl] at hM
      rcases List.mem_cons.mp hp with hp1 | hp2
      · subst hp1
        exact ⟨[], cs, rest, by simp, Or.inl ⟨rfl, rfl⟩, hM⟩
      · obtain ⟨hsuf, hlen, _⟩ := matchAttempt_suffix cs g1 g2 rest hM
        obtain ⟨d, hd⟩ := hsuf
        obtain ⟨pre, suf, rest2, hre, hflag, hm⟩ :=
          ih rest false p (by omega) hp2
        refine ⟨d ++ pre, suf, rest2, ?_, ?_, hm⟩
        · rw [← hd, hre, List.append_assoc]
        · rcases hflag with ⟨_, hbf⟩ | ⟨pre2, hpre2⟩
          · simp at hbf
          · exact Or.inr ⟨d ++ pre2, by rw [hpre2, List.append_assoc]⟩

/-- C5 amended — every extracted capture pair comes from a match anchored at
a line start whose line (the anchor position up to the next newline)
contains neither `static` nor `const`; in particular the spec's scenario
`const int FIXED = 5;` extracts nothing.  (The match may still *span into* a
following line that contains a modifier, because `\s` matches newlines: see
the counterexample.) -/
theorem modifier_exclusion (cs : List Char) (p : List Char × List Char)
    (h : p ∈ matchesOf cs) :
    (∃ pre suf rest, cs = pre ++ suf
      ∧ (pre = [] ∨ ∃ pre2, pre = pre2 ++ ['\n'])
      ∧ matchAttempt suf = some (p.1, p.2, rest)
      ∧ hasSub "static".data (lineOf suf) = false
      ∧ hasSub "const".data (lineOf suf) = false)
    ∧ glueMatches "const int FIXED = 5;" = [] := by
  constructor
  · obtain ⟨pre, suf, rest, hre, hflag, hm⟩ :=
      scanAuxF_sound (cs.length + 1) cs true p (by omega) h
    have hlook : lookaheadOK suf = true := (matchAttempt_suffix suf p.1 p.2 rest hm).2.2
    unfold lookaheadOK at hlook
    rw [Bool.and_eq_true, Bool.not_eq_true', Bool.not_eq_true'] at hlook
    refine ⟨pre, suf, rest, hre, ?_, hm, hlook.1, hlook.2⟩
    rcases hflag with ⟨hpre, _⟩ | hx
    · exact Or.inl hpre
    · exact Or.inr hx
  · decide

/-- Witness for `modifier_exclusion` at `int x;` and its unique capture. -/
theorem modifier_exclusion_witness :
    (("int".data, "x".data) ∈ matchesOf "int x;".data)
    ∧ ((∃ pre suf rest, "int x;".data = pre ++ suf
        ∧ (pre = [] ∨ ∃ pre2, pre = pre2 ++ ['\n'])
        ∧ matchAttempt suf = some (("int".data, "x".data).1, ("int".data, "x".data).2, rest)
        ∧ hasSub "static".data (lineOf suf) = false
        ∧ hasSub "const".data (lineOf suf) = false)
      ∧ glueMatches "const int FIXED = 5;" = []) :=
  ⟨by decide, modifier_exclusion "int x;".data ("int".data, "x".data) (by decide)⟩

/-- C5 counterexample — in `int\nconst int SECRET;` the anchor line `int`
is clean, but `\s*` crosses the newline and the *name* token `const` is
taken from the second line, which does contain `const`: a branch and an
extern line for the name `const` are emitted even though that line contains
the modifier, so the claim as stated (no extraction from such a line) is
false. -/
theorem modifier_exclusion_counterexample :
    glueMatches "int\nconst int SECRET;" = [("int", "const")]
    ∧ hasSub "extern int const;".data
        (generatedHeader "int\nconst int SECRET;").data = true := by
  refine ⟨by decide, by decide⟩

end GlueGen

